import Mathlib

/-!
Verification of the NHS GP supplier pipeline against its specification.

Shallow embedding of the Python sources:
  * `execution/helpers.py`        — canonical supplier resolution
  * `execution/download_gpad.py`  — download-link resolution, normalizer, writer
  * `execution/enrich_gp_data.py` — commissioner-cache enrichment
  * `execution/gp_lookup.py`      — query engine (lookup, statistics)

Strings are Lean `String`s, CSV rows are lists of strings, machine floats of
the statistics percentages are modelled by exact rationals, and every
fallible computation returns `Option`/`Except`.
-/

/-! ## helpers.py -/

/-- Model of Python `value.split("/")`: split the character sequence on `'/'`,
keeping empty pieces, so that `""` gives `[""]` and `"A//B"` gives
`["A", "", "B"]`, exactly as in Python. -/
def pySplitSlash (value : String) : List String :=
  (List.splitOn '/' value.data).map (fun cs => String.mk cs)

/-- Shallow embedding of `helpers.get_main_system_from_value`.

Python source:
```
systems = value.split("/")
if len(systems) == 1:
    return systems[0]
elif systems[0] == "EVERGREENLIFE":
    return systems[1]
elif systems[1] == "EVERGREENLIFE":
    return systems[0]
else:
    return systems[0]
```
`str.split` always returns a non-empty list, so the `[]` branch below is
unreachable; the `elif` branches apply to every list of two or more tokens,
not only to exactly two. -/
def get_main_system_from_value (value : String) : String :=
  match pySplitSlash value with
  | [] => ""
  | [s] => s
  | s0 :: s1 :: _ =>
    if s0 = "EVERGREENLIFE" then s1
    else if s1 = "EVERGREENLIFE" then s0
    else s0

/-- Modelled from the spec: the canonical-supplier rule exactly as claim C1
words it — the `EVERGREENLIFE` rules fire only on fields of exactly two
tokens, and every other multi-token field resolves to its first token. -/
def resolveCanonicalClaim (tokens : List String) : String :=
  match tokens with
  | [] => ""
  | [s] => s
  | [s0, s1] =>
    if s0 = "EVERGREENLIFE" then s1
    else if s1 = "EVERGREENLIFE" then s0
    else s0
  | s0 :: _ :: _ :: _ => s0

/-- Modelled from the spec, amended: the `EVERGREENLIFE` rules fire on every
field of two or more tokens (looking only at the first two tokens), matching
the code's `elif` chain. -/
def resolveCanonicalAmended (tokens : List String) : String :=
  if tokens.length ≤ 1 then tokens.headD ""
  else
    if tokens.getD 0 "" = "EVERGREENLIFE" then tokens.getD 1 ""
    else if tokens.getD 1 "" = "EVERGREENLIFE" then tokens.getD 0 ""
    else tokens.getD 0 ""

/-! ## download_gpad.py — download-link resolution -/

/-- Containment of `needle` in a list of characters, as in Python's
`needle in haystack` on strings. -/
def listContainsSub (hay needle : List Char) : Bool :=
  match hay with
  | [] => needle.isEmpty
  | _ :: rest => needle.isPrefixOf hay || listContainsSub rest needle

/-- Model of Python `needle in hay` for strings. -/
def strContainsSub (hay needle : String) : Bool :=
  listContainsSub hay.data needle.data

/-- Title predicate of `get_download_link_from_response`:
`"Annex 1" in download_title and "CSV" in download_title`. -/
def matchesAnnexCsv (title : String) : Bool :=
  strContainsSub title "Annex 1" && strContainsSub title "CSV"

/-- One download card scraped from the publications page: the text of its
first `p` tag and the `href` of its first anchor. -/
structure DownloadCard where
  title : String
  href : String
  deriving DecidableEq

/-- Shallow embedding of `download_gpad.get_download_link_from_response`.

Python source (the `for` loop with early `return` is `List.find?`):
```
for download in downloads:
    download_title = download.find("p").text
    if "Annex 1" in download_title and "CSV" in download_title:
        return download.find("a").get("href")
if len(downloads) == 0:
    raise Exception("No downloads found.")
else:
    raise Exception(f"Found {len(downloads)} downloads. No Annex 1 CSV downloads found.")
```
-/
def get_download_link_from_response (downloads : List DownloadCard) : Except String String :=
  match downloads.find? (fun d => matchesAnnexCsv d.title) with
  | some d => Except.ok d.href
  | none =>
    if downloads.length = 0 then Except.error "No downloads found."
    else Except.error ("Found " ++ toString downloads.length ++
      " downloads. No Annex 1 CSV downloads found.")

/-- Boolean success test for the `Except` result of link resolution. -/
def exceptIsOk (e : Except String String) : Bool :=
  match e with
  | Except.ok _ => true
  | Except.error _ => false

/-! ## download_gpad.py — normalizer -/

/-- Accumulator of `process_data_files`: the two insertion-ordered Python
dicts, modelled as association lists where a key is appended on first
occurrence. `data` maps a GP code to `(appointments_systems, main_system)`,
`names` maps a GP code to its practice name. -/
structure NormState where
  data : List (String × String × String)
  names : List (String × String)

/-- Shallow embedding of the per-row body of `process_data_files`:

```
if len(row) < 4:
    continue
gp_code = row[1]
gp_name = row[2]
appointments_systems = row[3]
main_system = get_main_system_from_value(appointments_systems)
if gp_code not in data:
    data[gp_code] = (appointments_systems, main_system)
if gp_code not in gp_code_to_name:
    gp_code_to_name[gp_code] = gp_name
```
-/
def processRow (st : NormState) (row : List String) : NormState :=
  if row.length < 4 then st
  else
    let gp_code := row.getD 1 ""
    let gp_name := row.getD 2 ""
    let appointments_systems := row.getD 3 ""
    let main_system := get_main_system_from_value appointments_systems
    { data :=
        if (st.data.lookup gp_code).isSome then st.data
        else st.data ++ [(gp_code, appointments_systems, main_system)]
      names :=
        if (st.names.lookup gp_code).isSome then st.names
        else st.names ++ [(gp_code, gp_name)] }

/-- Executable lexicographic comparison of character sequences, the order by
which Python compares strings (by code point). Agrees with `String`'s `≤`
(`charListLe_iff_le` below). -/
def charListLe : List Char → List Char → Bool
  | [], _ => true
  | _ :: _, [] => false
  | a :: as, b :: bs => if a < b then true else if b < a then false else charListLe as bs

/-- Ordering used for `dict(sorted(data.items()))`: ascending by GP code
(keys are pairwise distinct, so the tuple comparison never reaches the
values). -/
def keyLe (a b : String × String × String) : Prop :=
  charListLe a.1.data b.1.data = true

instance keyLe.decRel : DecidableRel keyLe :=
  fun _ _ => inferInstanceAs (Decidable (_ = true))

/-- Shallow embedding of `download_gpad.process_data_files`: each input file
is its list of CSV rows; `enumerate` index 0 (the header) is skipped, then
each row runs through `processRow`; finally
`data = dict(sorted(data.items()))` sorts the `data` dict ascending by key
(a stable sort, matching Python's `sorted`). -/
def process_data_files (files : List (List (List String))) :
    List (String × String × String) × List (String × String) :=
  let st := files.foldl (fun st f => (f.drop 1).foldl processRow st) ⟨[], []⟩
  (List.insertionSort keyLe st.data, st.names)

/-- The data rows actually consumed by `process_data_files`, in stable
file-then-row order: drop each file's header row, skip rows with fewer than
four columns. -/
def validRows (files : List (List (List String))) : List (List String) :=
  ((files.map (fun f => f.drop 1)).flatten).filter (fun r => 4 ≤ r.length)

/-- Shallow embedding of `download_gpad.write_output_file`: a header row
followed by one row `[gp_code, gp_code_to_name[gp_code],
appointment_systems, main_system]` per entry of the sorted `data` dict. -/
def write_output_file (data : List (String × String × String))
    (names : List (String × String)) : List (List String) :=
  ["GP_ODS_CODE", "GP_NAME", "GP_GPAD_SYSTEMS", "GP_SYSTEM"] ::
    data.map (fun p => [p.1, (names.lookup p.1).getD "", p.2.1, p.2.2])

/-! ## enrich_gp_data.py -/

/-- One row of the `gp_suppliers_<month>.csv` input to the enricher: its
`GP_ODS_CODE` field plus the remaining fields, which the enricher copies
through untouched. -/
structure InRow where
  ods : String
  rest : List String
  deriving DecidableEq

/-- Model of `icb_code = ods_map.get(ods_code)` followed by Python's truthy
test `if not icb_code:` — a stored empty string counts as a miss. -/
def cacheHit (m : List (String × String)) (c : String) : Option String :=
  match m.lookup c with
  | some x => if x = "" then none else some x
  | none => none

/-- Model of Python dict assignment `m[k] = v`: update the existing entry in
place, else append, preserving insertion order. -/
def dictSet (m : List (String × String)) (k v : String) : List (String × String) :=
  if (m.lookup k).isSome then m.map (fun p => if p.1 = k then (k, v) else p)
  else m ++ [(k, v)]

/-- State threaded through the enricher's main loop: the in-memory
`ods_map`, the `(ods_code, icb_code)` pairs appended to the persistent map
file by `append_to_map` during this run (the CSV stores them as
`[icb_code, ods_code]`), the codes for which a network call was issued, and
the accumulated output rows `(icb_code, original row)`. -/
structure EnrichState where
  odsMap : List (String × String)
  appends : List (String × String)
  apiCalls : List String
  outRows : List (String × InRow)
  deriving DecidableEq

/-- Shallow embedding of one iteration of the enricher's row loop in
`enrich_gp_data.main`; `oracle` abstracts `get_commissioner_code` (`none`
covers HTTP 404, a missing `Commissioned By` relationship, and
transport/parse failures, which all return Python `None`):

```
ods_code = row['GP_ODS_CODE']
icb_code = ods_map.get(ods_code)
if not icb_code:
    icb_code = get_commissioner_code(ods_code)
    if icb_code:
        ods_map[ods_code] = icb_code
        append_to_map(MAP_FILE, ods_code, icb_code)
    else:
        icb_code = "UNKNOWN"
row['ICB Sub location'] = icb_code
new_rows.append(row)
```
-/
def enrichStep (oracle : String → Option String) (st : EnrichState) (row : InRow) :
    EnrichState :=
  let c := row.ods
  match cacheHit st.odsMap c with
  | some x => { st with outRows := st.outRows ++ [(x, row)] }
  | none =>
    let st := { st with apiCalls := st.apiCalls ++ [c] }
    match oracle c with
    | some v =>
      if v = "" then { st with outRows := st.outRows ++ [("UNKNOWN", row)] }
      else
        { st with
          odsMap := dictSet st.odsMap c v
          appends := st.appends ++ [(c, v)]
          outRows := st.outRows ++ [(v, row)] }
    | none => { st with outRows := st.outRows ++ [("UNKNOWN", row)] }

/-- Shallow embedding of the row loop of `enrich_gp_data.main`, starting
from the map loaded by `load_map` and an empty output. -/
def enrich_main (oracle : String → Option String) (initMap : List (String × String))
    (rows : List InRow) : EnrichState :=
  rows.foldl (enrichStep oracle) ⟨initMap, [], [], []⟩

/-! ## gp_lookup.py -/

/-- One row of the loaded `icb_gp_suppliers` artifact, as produced by
`csv.DictReader` (the fields used by the query engine). -/
structure CsvRow where
  GP_ODS_CODE : String
  GP_NAME : String
  GP_GPAD_SYSTEMS : String
  GP_SYSTEM : String
  deriving DecidableEq

/-- Shallow embedding of `GPSupplierLookup.lookup_by_ods_code`:

```
for row in self.data:
    if row["GP_ODS_CODE"] == ods_code.upper():
        return row
return None
```
-/
def lookup_by_ods_code (data : List CsvRow) (ods_code : String) : Option CsvRow :=
  match data with
  | [] => none
  | r :: rest =>
    if r.GP_ODS_CODE = ods_code.toUpper then some r
    else lookup_by_ods_code rest ods_code

/-- Model of `system_counts[system] = system_counts.get(system, 0) + 1` on a
Python dict: increment in place, or append a fresh key at the end,
preserving first-encounter order. -/
def bumpCount : List (String × Nat) → String → List (String × Nat)
  | [], s => [(s, 1)]
  | (k, n) :: rest, s =>
    if k = s then (k, n + 1) :: rest else (k, n) :: bumpCount rest s

/-- The `system_counts` dict built by `get_statistics`, in first-encounter
order. -/
def system_counts (data : List CsvRow) : List (String × Nat) :=
  data.foldl (fun m r => bumpCount m r.GP_SYSTEM) []

/-- Ordering used for `sorted(system_counts.items(), key=lambda x: x[1],
reverse=True)`: descending by count; Python's sort is stable, so ties keep
first-encounter order, as does insertion sort with this reflexive-on-ties
relation. -/
def countGe (a b : String × Nat) : Prop := b.2 ≤ a.2

instance countGe.decRel : DecidableRel countGe :=
  fun a b => inferInstanceAs (Decidable (b.2 ≤ a.2))

instance countGe.isTotal : IsTotal (String × Nat) countGe :=
  ⟨fun a b => le_total b.2 a.2⟩

instance countGe.isTrans : IsTrans (String × Nat) countGe :=
  ⟨fun _ _ _ h h2 => le_trans h2 h⟩

/-- Exact-rational model of Python's `round` to an integer: round half to
even (banker's rounding). Stands in for IEEE-double rounding on the small
decimal values produced by the statistics. -/
def round_half_even (x : ℚ) : ℤ :=
  let n := ⌊x⌋
  let f := x - (n : ℚ)
  if f < 1 / 2 then n
  else if 1 / 2 < f then n + 1
  else if n % 2 = 0 then n else n + 1

/-- Exact-rational model of Python's `round(x, 2)`. -/
def pyRound2 (x : ℚ) : ℚ :=
  (round_half_even (x * 100) : ℚ) / 100

/-- Percentage attachment loop of `get_statistics`:
`round((count / total) * 100, 2)` for each supplier, in sorted order. A zero
`total` would be a Python `ZeroDivisionError`, modelled as `none`. -/
def attachPercentages (total : Nat) : List (String × Nat) → Option (List (String × Nat × ℚ))
  | [] => some []
  | (s, cnt) :: rest =>
    if total = 0 then none
    else
      match attachPercentages total rest with
      | some tail => some ((s, cnt, pyRound2 (((cnt : ℚ) / (total : ℚ)) * 100)) :: tail)
      | none => none

/-- Result of `get_statistics`: the total record count and, per supplier in
sorted order, its count and its percentage of the total. -/
structure Stats where
  total_practices : Nat
  systems : List (String × Nat × ℚ)
  deriving DecidableEq

/-- Shallow embedding of `GPSupplierLookup.get_statistics`:

```
system_counts = {}
total = len(self.data)
for row in self.data:
    system = row["GP_SYSTEM"]
    system_counts[system] = system_counts.get(system, 0) + 1
stats = {"total_practices": total, "systems": {}}
for system, count in sorted(system_counts.items(), key=lambda x: x[1], reverse=True):
    stats["systems"][system] = {"count": count,
                                "percentage": round((count / total) * 100, 2)}
return stats
```
-/
def get_statistics (data : List CsvRow) : Option Stats :=
  match attachPercentages data.length (List.insertionSort countGe (system_counts data)) with
  | some l => some ⟨data.length, l⟩
  | none => none

/-! ## Helper lemmas -/

theorem pySplitSlash_ne_nil (value : String) : pySplitSlash value ≠ [] := by
  unfold pySplitSlash
  simp [List.splitOn, List.splitOnP_ne_nil]

theorem resolveCanonicalAmended_eq (value : String) :
    get_main_system_from_value value = resolveCanonicalAmended (pySplitSlash value) := by
  unfold get_main_system_from_value resolveCanonicalAmended
  rcases h : pySplitSlash value with _ | ⟨s0, _ | ⟨s1, rest⟩⟩ <;> simp

theorem get_main_system_mem (value : String) :
    get_main_system_from_value value ∈ pySplitSlash value := by
  unfold get_main_system_from_value
  rcases h : pySplitSlash value with _ | ⟨s0, _ | ⟨s1, rest⟩⟩
  · exact absurd h (pySplitSlash_ne_nil value)
  · simp
  · simp only
    split
    · simp
    · split <;> simp

theorem charListLe_iff : ∀ (as bs : List Char), charListLe as bs = true ↔ ¬ List.lt bs as := by
  intro as
  induction as with
  | nil =>
    intro bs
    constructor
    · intro _ h; cases h
    · intro _; rfl
  | cons a as ih =>
    intro bs
    cases bs with
    | nil =>
      simp only [charListLe, Bool.false_eq_true, false_iff, not_not]
      exact List.lt.nil a as
    | cons b bs =>
      unfold charListLe
      rcases lt_trichotomy a b with h | h | h
      · simp only [h, if_pos, true_iff]
        intro hlt
        cases hlt with
        | head _ _ hba => exact absurd hba (not_lt_of_gt h)
        | tail h1 h2 _ => exact absurd h h2
      · subst h
        simp only [lt_irrefl, if_neg, ite_self, not_false_iff]
        rw [ih bs]
        constructor
        · intro hn hlt
          cases hlt with
          | head _ _ hba => exact absurd hba (lt_irrefl a)
          | tail h1 h2 h3 => exact hn h3
        · intro hn hlt
          exact hn (List.lt.tail (lt_irrefl a) (lt_irrefl a) hlt)
      · rw [if_neg (not_lt_of_gt h), if_pos h]
        simp only [Bool.false_eq_true, false_iff, not_not]
        exact List.lt.head bs as h

theorem charListLe_iff_le (a b : String) : charListLe a.data b.data = true ↔ a ≤ b := by
  rw [charListLe_iff]
  have h1 : (a ≤ b) ↔ ¬ (b.toList < a.toList) := not_congr String.lt_iff_toList_lt
  have h2 : List.lt b.data a.data ↔ (b.toList < a.toList) :=
    (List.lt_iff_lex_lt b.data a.data).trans Iff.rfl
  rw [h1, h2]

theorem keyLe_total (a b : String × String × String) : keyLe a b ∨ keyLe b a := by
  unfold keyLe
  rw [charListLe_iff_le, charListLe_iff_le]
  exact le_total a.1 b.1

theorem keyLe_trans {a b c : String × String × String} (h1 : keyLe a b) (h2 : keyLe b c) :
    keyLe a c := by
  unfold keyLe at h1 h2 ⊢
  rw [charListLe_iff_le] at h1 h2 ⊢
  exact le_trans h1 h2

/-! ### Association-list helper lemmas -/

theorem lookup_append {β : Type} (l : List (String × β)) (k : String) (v : β) (c : String) :
    (l ++ [(k, v)]).lookup c = (l.lookup c).or (if c = k then some v else none) := by
  induction l with
  | nil =>
    by_cases h : c = k
    · simp [List.lookup, h]
    · have hb : (c == k) = false := beq_eq_false_iff_ne.mpr h
      simp [List.lookup, hb, h]
  | cons p l ih =>
    by_cases h : c = p.1
    · simp [List.lookup, h]
    · have hb : (c == p.1) = false := beq_eq_false_iff_ne.mpr h
      simp only [List.cons_append, List.lookup, hb]
      exact ih

theorem lookup_eq_none_iff {β : Type} (l : List (String × β)) (c : String) :
    l.lookup c = none ↔ c ∉ l.map Prod.fst := by
  induction l with
  | nil => simp [List.lookup]
  | cons p l ih =>
    by_cases h : c = p.1
    · simp [List.lookup, h]
    · have hb : (c == p.1) = false := beq_eq_false_iff_ne.mpr h
      simp only [List.lookup, hb, List.map_cons, List.mem_cons]
      rw [ih]
      constructor
      · intro hn hor
        rcases hor with hh | hh
        · exact h hh
        · exact hn hh
      · intro hn hm
        exact hn (Or.inr hm)

theorem lookup_eq_some_mem {β : Type} {l : List (String × β)} {c : String} {v : β}
    (h : l.lookup c = some v) : (c, v) ∈ l := by
  induction l with
  | nil => simp [List.lookup] at h
  | cons p l ih =>
    by_cases hc : c = p.1
    · subst hc
      simp only [List.lookup, beq_self_eq_true] at h
      cases h
      exact List.mem_cons_self p l
    · have hb : (c == p.1) = false := beq_eq_false_iff_ne.mpr hc
      simp only [List.lookup, hb] at h
      exact List.mem_cons_of_mem p (ih h)

theorem mem_lookup_of_nodup {β : Type} {l : List (String × β)} {c : String} {v : β}
    (hn : (l.map Prod.fst).Nodup) (h : (c, v) ∈ l) : l.lookup c = some v := by
  induction l with
  | nil => cases h
  | cons p l ih =>
    rcases List.mem_cons.mp h with hh | hh
    · subst hh
      simp [List.lookup]
    · have hc : c ≠ p.1 := by
        intro hceq
        have hmem : c ∈ l.map Prod.fst := List.mem_map.mpr ⟨(c, v), hh, rfl⟩
        rw [List.map_cons, List.nodup_cons] at hn
        exact hn.1 (hceq ▸ hmem)
      have hb : (c == p.1) = false := beq_eq_false_iff_ne.mpr hc
      simp only [List.lookup, hb]
      rw [List.map_cons, List.nodup_cons] at hn
      exact ih hn.2 hh

theorem lookup_isSome_iff {β : Type} (l : List (String × β)) (c : String) :
    (l.lookup c).isSome = true ↔ c ∈ l.map Prod.fst := by
  rcases h : l.lookup c with _ | v
  · rw [lookup_eq_none_iff] at h
    simp [h]
  · have := lookup_eq_some_mem h
    have : c ∈ l.map Prod.fst := List.mem_map.mpr ⟨(c, v), this, rfl⟩
    simp [this]

theorem lookup_perm {β : Type} {l l2 : List (String × β)} (h : l.Perm l2)
    (hn : (l.map Prod.fst).Nodup) (c : String) : l.lookup c = l2.lookup c := by
  have hn2 : (l2.map Prod.fst).Nodup := (h.map Prod.fst).nodup_iff.mp hn
  rcases hl : l.lookup c with _ | v
  · rcases hl2 : l2.lookup c with _ | v2
    · rfl
    · have hm2 : (c, v2) ∈ l := h.symm.subset (lookup_eq_some_mem hl2)
      have := mem_lookup_of_nodup hn hm2
      rw [hl] at this
      cases this
  · have hm : (c, v) ∈ l2 := h.subset (lookup_eq_some_mem hl)
    exact (mem_lookup_of_nodup hn2 hm).symm

/-! ### Normalizer fold lemmas -/

theorem foldl_files_eq (files : List (List (List String))) (st : NormState) :
    files.foldl (fun st f => (f.drop 1).foldl processRow st) st
      = ((files.map (fun f => f.drop 1)).flatten).foldl processRow st := by
  induction files generalizing st with
  | nil => rfl
  | cons f files ih =>
    simp only [List.foldl_cons, List.map_cons, List.flatten_cons, List.foldl_append]
    exact ih _

theorem processRow_invalid {st : NormState} {r : List String} (h : r.length < 4) :
    processRow st r = st := by
  unfold processRow
  rw [if_pos h]

theorem foldl_filter_eq (rows : List (List String)) (st : NormState) :
    rows.foldl processRow st = (rows.filter (fun r => 4 ≤ r.length)).foldl processRow st := by
  induction rows generalizing st with
  | nil => rfl
  | cons r rows ih =>
    by_cases h : 4 ≤ r.length
    · have hp : (decide (4 ≤ r.length)) = true := decide_eq_true h
      simp only [List.foldl_cons, List.filter_cons, hp, if_true]
      exact ih _
    · have hp : (decide (4 ≤ r.length)) = false := decide_eq_false h
      have hskip : processRow st r = st := processRow_invalid (by omega)
      simp only [List.foldl_cons, List.filter_cons, hp, Bool.false_eq_true, if_false, hskip]
      exact ih st

theorem data_lookup_foldl (rows : List (List String)) (st : NormState) (c : String)
    (hv : ∀ r ∈ rows, 4 ≤ r.length) :
    ((rows.foldl processRow st).data.lookup c)
      = (st.data.lookup c).or
          ((rows.find? (fun r => r.getD 1 "" == c)).map
            (fun r => (r.getD 3 "", get_main_system_from_value (r.getD 3 "")))) := by
  induction rows generalizing st with
  | nil => simp
  | cons r rows ih =>
    have hr : 4 ≤ r.length := hv r (List.mem_cons_self r rows)
    have hrest : ∀ x ∈ rows, 4 ≤ x.length := fun x hx => hv x (List.mem_cons_of_mem r hx)
    simp only [List.foldl_cons]
    rw [ih _ hrest]
    have hdata : (processRow st r).data =
        (if (st.data.lookup (r.getD 1 "")).isSome then st.data
         else st.data ++ [(r.getD 1 "", r.getD 3 "", get_main_system_from_value (r.getD 3 ""))]) := by
      unfold processRow
      rw [if_neg (by omega)]
    by_cases hc : r.getD 1 "" = c
    · subst hc
      have hfind : List.find? (fun x : List String => x.getD 1 "" == r.getD 1 "") (r :: rows)
          = some r := by
        simp
      rw [hfind]
      rcases hs : st.data.lookup (r.getD 1 "") with _ | v
      · have hneg : ¬ ((st.data.lookup (r.getD 1 "")).isSome = true) := by
          rw [hs]
          simp
        rw [hdata, if_neg hneg, lookup_append, hs, if_pos rfl]
        simp
      · have hpos : (st.data.lookup (r.getD 1 "")).isSome = true := by
          rw [hs]
          rfl
        rw [hdata, if_pos hpos, hs]
        simp
    · have hfind : List.find? (fun x : List String => x.getD 1 "" == c) (r :: rows)
          = List.find? (fun x : List String => x.getD 1 "" == c) rows :=
        List.find?_cons_of_neg rows (by simpa using hc)
      rw [hfind]
      have hlook : (processRow st r).data.lookup c = st.data.lookup c := by
        rw [hdata]
        by_cases hs : (st.data.lookup (r.getD 1 "")).isSome = true
        · rw [if_pos hs]
        · rw [if_neg hs, lookup_append, if_neg (fun hcc => hc hcc.symm)]
          simp
      rw [hlook]

theorem names_lookup_foldl (rows : List (List String)) (st : NormState) (c : String)
    (hv : ∀ r ∈ rows, 4 ≤ r.length) :
    ((rows.foldl processRow st).names.lookup c)
      = (st.names.lookup c).or
          ((rows.find? (fun r => r.getD 1 "" == c)).map (fun r => r.getD 2 "")) := by
  induction rows generalizing st with
  | nil => simp
  | cons r rows ih =>
    have hr : 4 ≤ r.length := hv r (List.mem_cons_self r rows)
    have hrest : ∀ x ∈ rows, 4 ≤ x.length := fun x hx => hv x (List.mem_cons_of_mem r hx)
    simp only [List.foldl_cons]
    rw [ih _ hrest]
    have hnames : (processRow st r).names =
        (if (st.names.lookup (r.getD 1 "")).isSome then st.names
         else st.names ++ [(r.getD 1 "", r.getD 2 "")]) := by
      unfold processRow
      rw [if_neg (by omega)]
    by_cases hc : r.getD 1 "" = c
    · subst hc
      have hfind : List.find? (fun x : List String => x.getD 1 "" == r.getD 1 "") (r :: rows)
          = some r := by
        simp
      rw [hfind]
      rcases hs : st.names.lookup (r.getD 1 "") with _ | v
      · have hneg : ¬ ((st.names.lookup (r.getD 1 "")).isSome = true) := by
          rw [hs]
          simp
        rw [hnames, if_neg hneg, lookup_append, hs, if_pos rfl]
        simp
      · have hpos : (st.names.lookup (r.getD 1 "")).isSome = true := by
          rw [hs]
          rfl
        rw [hnames, if_pos hpos, hs]
        simp
    · have hfind : List.find? (fun x : List String => x.getD 1 "" == c) (r :: rows)
          = List.find? (fun x : List String => x.getD 1 "" == c) rows :=
        List.find?_cons_of_neg rows (by simpa using hc)
      rw [hfind]
      have hlook : (processRow st r).names.lookup c = st.names.lookup c := by
        rw [hnames]
        by_cases hs : (st.names.lookup (r.getD 1 "")).isSome = true
        · rw [if_pos hs]
        · rw [if_neg hs, lookup_append, if_neg (fun hcc => hc hcc.symm)]
          simp
      rw [hlook]

theorem data_nodupkeys_foldl (rows : List (List String)) (st : NormState)
    (hn : (st.data.map Prod.fst).Nodup) :
    (((rows.foldl processRow st).data).map Prod.fst).Nodup := by
  induction rows generalizing st with
  | nil => exact hn
  | cons r rows ih =>
    simp only [List.foldl_cons]
    apply ih
    unfold processRow
    split
    · exact hn
    · simp only
      split
      · exact hn
      · rename_i hlk
        have hmem : (r.getD 1 "") ∉ st.data.map Prod.fst := by
          rw [← lookup_isSome_iff]
          simpa using hlk
        simp only [List.map_append, List.nodup_append, List.map_cons, List.map_nil,
          List.nodup_cons, List.not_mem_nil, not_false_iff, List.nodup_nil, true_and, and_true]
        refine ⟨hn, ?_⟩
        intro k hk hkeq
        rw [List.mem_singleton] at hkeq
        subst hkeq
        exact hmem hk

/-! ### Enricher lemmas -/

theorem lookup_map_update_ne (m : List (String × String)) (k v c : String) (h : c ≠ k) :
    (m.map (fun p => if p.1 = k then (k, v) else p)).lookup c = m.lookup c := by
  induction m with
  | nil => rfl
  | cons p m ih =>
    simp only [List.map_cons]
    by_cases hp : p.1 = k
    · rw [if_pos hp]
      have hck : (c == k) = false := beq_eq_false_iff_ne.mpr h
      have hcp : (c == p.1) = false := beq_eq_false_iff_ne.mpr (by rw [hp]; exact h)
      simp only [List.lookup, hck, hcp]
      exact ih
    · rw [if_neg hp]
      simp only [List.lookup]
      cases hcp : (c == p.1)
      · exact ih
      · rfl

theorem dictSet_lookup_ne (m : List (String × String)) (k v c : String) (h : c ≠ k) :
    (dictSet m k v).lookup c = m.lookup c := by
  unfold dictSet
  split
  · exact lookup_map_update_ne m k v c h
  · rw [lookup_append, if_neg h]
    simp

theorem cacheHit_of_lookup {m : List (String × String)} {c X : String}
    (h : m.lookup c = some X) (hX : X ≠ "") : cacheHit m c = some X := by
  unfold cacheHit
  rw [h]
  simp [hX]

theorem cacheHit_dictSet_ne (m : List (String × String)) (k v c : String) (h : c ≠ k) :
    cacheHit (dictSet m k v) c = cacheHit m c := by
  unfold cacheHit
  rw [dictSet_lookup_ne m k v c h]

theorem enrichStep_hit {oracle : String → Option String} {st : EnrichState} {row : InRow}
    {x : String} (h : cacheHit st.odsMap row.ods = some x) :
    enrichStep oracle st row = { st with outRows := st.outRows ++ [(x, row)] } := by
  unfold enrichStep
  simp only [h]

theorem enrichStep_miss_found {oracle : String → Option String} {st : EnrichState}
    {row : InRow} {v : String} (h : cacheHit st.odsMap row.ods = none)
    (ho : oracle row.ods = some v) (hv : v ≠ "") :
    enrichStep oracle st row =
      { odsMap := dictSet st.odsMap row.ods v
        appends := st.appends ++ [(row.ods, v)]
        apiCalls := st.apiCalls ++ [row.ods]
        outRows := st.outRows ++ [(v, row)] } := by
  unfold enrichStep
  simp only [h, ho, if_neg hv]

theorem enrichStep_miss_empty {oracle : String → Option String} {st : EnrichState}
    {row : InRow} (h : cacheHit st.odsMap row.ods = none) (ho : oracle row.ods = some "") :
    enrichStep oracle st row =
      { st with
        apiCalls := st.apiCalls ++ [row.ods]
        outRows := st.outRows ++ [("UNKNOWN", row)] } := by
  unfold enrichStep
  simp only [h, ho, reduceIte]

theorem enrichStep_miss_none {oracle : String → Option String} {st : EnrichState}
    {row : InRow} (h : cacheHit st.odsMap row.ods = none) (ho : oracle row.ods = none) :
    enrichStep oracle st row =
      { st with
        apiCalls := st.apiCalls ++ [row.ods]
        outRows := st.outRows ++ [("UNKNOWN", row)] } := by
  unfold enrichStep
  simp only [h, ho]

theorem enrich_cached_invariant (oracle : String → Option String) (c X : String) (hX : X ≠ "") :
    ∀ (rows : List InRow) (st : EnrichState),
    st.odsMap.lookup c = some X → c ∉ st.apiCalls → (∀ p ∈ st.appends, p.1 ≠ c) →
    (∀ r ∈ st.outRows, r.2.ods = c → r.1 = X) →
    (let fin := rows.foldl (enrichStep oracle) st
     fin.odsMap.lookup c = some X ∧ c ∉ fin.apiCalls ∧
     (∀ p ∈ fin.appends, p.1 ≠ c) ∧ (∀ r ∈ fin.outRows, r.2.ods = c → r.1 = X)) := by
  intro rows
  induction rows with
  | nil => exact fun st h1 h2 h3 h4 => ⟨h1, h2, h3, h4⟩
  | cons row rows ih =>
    intro st h1 h2 h3 h4
    simp only [List.foldl_cons]
    by_cases hrc : row.ods = c
    · have hhit : cacheHit st.odsMap row.ods = some X := by
        rw [hrc]
        exact cacheHit_of_lookup h1 hX
      rw [enrichStep_hit hhit]
      apply ih
      · exact h1
      · exact h2
      · exact h3
      · intro r hr hrq
        rcases List.mem_append.mp hr with hr | hr
        · exact h4 r hr hrq
        · rw [List.mem_singleton] at hr
          rw [hr]
    · rcases hhit : cacheHit st.odsMap row.ods with _ | x
      · rcases ho : oracle row.ods with _ | v
        · rw [enrichStep_miss_none hhit ho]
          apply ih
          · exact h1
          · intro hmem
            rcases List.mem_append.mp hmem with hm | hm
            · exact h2 hm
            · rw [List.mem_singleton] at hm
              exact hrc hm.symm
          · exact h3
          · intro r hr hrq
            rcases List.mem_append.mp hr with hr | hr
            · exact h4 r hr hrq
            · rw [List.mem_singleton] at hr
              rw [hr] at hrq
              exact absurd hrq hrc
        · by_cases hv : v = ""
          · subst hv
            rw [enrichStep_miss_empty hhit ho]
            apply ih
            · exact h1
            · intro hmem
              rcases List.mem_append.mp hmem with hm | hm
              · exact h2 hm
              · rw [List.mem_singleton] at hm
                exact hrc hm.symm
            · exact h3
            · intro r hr hrq
              rcases List.mem_append.mp hr with hr | hr
              · exact h4 r hr hrq
              · rw [List.mem_singleton] at hr
                rw [hr] at hrq
                exact absurd hrq hrc
          · rw [enrichStep_miss_found hhit ho hv]
            apply ih
            · rw [dictSet_lookup_ne _ _ _ _ (fun hcc => hrc hcc.symm)]
              exact h1
            · intro hmem
              rcases List.mem_append.mp hmem with hm | hm
              · exact h2 hm
              · rw [List.mem_singleton] at hm
                exact hrc hm.symm
            · intro p hp
              rcases List.mem_append.mp hp with hm | hm
              · exact h3 p hm
              · rw [List.mem_singleton] at hm
                rw [hm]
                exact fun hcc => hrc hcc
            · intro r hr hrq
              rcases List.mem_append.mp hr with hr | hr
              · exact h4 r hr hrq
              · rw [List.mem_singleton] at hr
                rw [hr] at hrq
                exact absurd hrq hrc
      · rw [enrichStep_hit hhit]
        apply ih
        · exact h1
        · exact h2
        · exact h3
        · intro r hr hrq
          rcases List.mem_append.mp hr with hr | hr
          · exact h4 r hr hrq
          · rw [List.mem_singleton] at hr
            rw [hr] at hrq
            exact absurd hrq hrc

theorem enrich_404_invariant (oracle : String → Option String) (c : String)
    (h404 : oracle c = none) :
    ∀ (rows : List InRow) (st : EnrichState),
    cacheHit st.odsMap c = none → (∀ p ∈ st.appends, p.1 ≠ c) →
    (∀ r ∈ st.outRows, r.2.ods = c → r.1 = "UNKNOWN") →
    (let fin := rows.foldl (enrichStep oracle) st
     cacheHit fin.odsMap c = none ∧ (∀ p ∈ fin.appends, p.1 ≠ c) ∧
     (∀ r ∈ fin.outRows, r.2.ods = c → r.1 = "UNKNOWN")) := by
  intro rows
  induction rows with
  | nil => exact fun st h1 h2 h3 => ⟨h1, h2, h3⟩
  | cons row rows ih =>
    intro st h1 h2 h3
    simp only [List.foldl_cons]
    by_cases hrc : row.ods = c
    · have hhit : cacheHit st.odsMap row.ods = none := by
        rw [hrc]
        exact h1
      have ho : oracle row.ods = none := by
        rw [hrc]
        exact h404
      rw [enrichStep_miss_none hhit ho]
      apply ih
      · exact h1
      · exact h2
      · intro r hr hrq
        rcases List.mem_append.mp hr with hr | hr
        · exact h3 r hr hrq
        · rw [List.mem_singleton] at hr
          rw [hr]
    · rcases hhit : cacheHit st.odsMap row.ods with _ | x
      · rcases ho : oracle row.ods with _ | v
        · rw [enrichStep_miss_none hhit ho]
          apply ih
          · exact h1
          · exact h2
          · intro r hr hrq
            rcases List.mem_append.mp hr with hr | hr
            · exact h3 r hr hrq
            · rw [List.mem_singleton] at hr
              rw [hr] at hrq
              exact absurd hrq hrc
        · by_cases hv : v = ""
          · subst hv
            rw [enrichStep_miss_empty hhit ho]
            apply ih
            · exact h1
            · exact h2
            · intro r hr hrq
              rcases List.mem_append.mp hr with hr | hr
              · exact h3 r hr hrq
              · rw [List.mem_singleton] at hr
                rw [hr] at hrq
                exact absurd hrq hrc
          · rw [enrichStep_miss_found hhit ho hv]
            apply ih
            · rw [cacheHit_dictSet_ne _ _ _ _ (fun hcc => hrc hcc.symm)]
              exact h1
            · intro p hp
              rcases List.mem_append.mp hp with hm | hm
              · exact h2 p hm
              · rw [List.mem_singleton] at hm
                rw [hm]
                exact fun hcc => hrc hcc
            · intro r hr hrq
              rcases List.mem_append.mp hr with hr | hr
              · exact h3 r hr hrq
              · rw [List.mem_singleton] at hr
                rw [hr] at hrq
                exact absurd hrq hrc
      · rw [enrichStep_hit hhit]
        apply ih
        · exact h1
        · exact h2
        · intro r hr hrq
          rcases List.mem_append.mp hr with hr | hr
          · exact h3 r hr hrq
          · rw [List.mem_singleton] at hr
            rw [hr] at hrq
            exact absurd hrq hrc

theorem enrichStep_outRows_length (oracle : String → Option String) (st : EnrichState)
    (row : InRow) :
    (enrichStep oracle st row).outRows.length = st.outRows.length + 1 := by
  rcases hhit : cacheHit st.odsMap row.ods with _ | x
  · rcases ho : oracle row.ods with _ | v
    · rw [enrichStep_miss_none hhit ho]
      simp
    · by_cases hv : v = ""
      · subst hv
        rw [enrichStep_miss_empty hhit ho]
        simp
      · rw [enrichStep_miss_found hhit ho hv]
        simp
  · rw [enrichStep_hit hhit]
    simp

theorem enrich_outRows_length (oracle : String → Option String) :
    ∀ (rows : List InRow) (st : EnrichState),
    ((rows.foldl (enrichStep oracle) st).outRows).length = st.outRows.length + rows.length := by
  intro rows
  induction rows with
  | nil => simp
  | cons row rows ih =>
    intro st
    simp only [List.foldl_cons, List.length_cons]
    rw [ih, enrichStep_outRows_length]
    omega

theorem enrich_appends_consistent (oracle : String → Option String) :
    ∀ (rows : List InRow) (st : EnrichState),
    (∀ p ∈ st.appends, oracle p.1 = some p.2 ∧ p.2 ≠ "") →
    ∀ p ∈ (rows.foldl (enrichStep oracle) st).appends, oracle p.1 = some p.2 ∧ p.2 ≠ "" := by
  intro rows
  induction rows with
  | nil => exact fun st h => h
  | cons row rows ih =>
    intro st h
    simp only [List.foldl_cons]
    apply ih
    rcases hhit : cacheHit st.odsMap row.ods with _ | x
    · rcases ho : oracle row.ods with _ | v
      · rw [enrichStep_miss_none hhit ho]
        exact h
      · by_cases hv : v = ""
        · subst hv
          rw [enrichStep_miss_empty hhit ho]
          exact h
        · rw [enrichStep_miss_found hhit ho hv]
          intro p hp
          rcases List.mem_append.mp hp with hm | hm
          · exact h p hm
          · rw [List.mem_singleton] at hm
            rw [hm]
            exact ⟨ho, hv⟩
    · rw [enrichStep_hit hhit]
      exact h

/-! ### Query-engine lemmas -/

theorem toNat_ofNat_valid {m : Nat} (h : m.isValidChar) : (Char.ofNat m).toNat = m := by
  rw [Char.ofNat, dif_pos h]
  rfl

theorem charToUpper_idem (c : Char) : c.toUpper.toUpper = c.toUpper := by
  unfold Char.toUpper
  by_cases h : c.toNat ≥ 97 ∧ c.toNat ≤ 122
  · have hv : (c.toNat - 32).isValidChar := Or.inl (by omega)
    have ht : (Char.ofNat (c.toNat - 32)).toNat = c.toNat - 32 := toNat_ofNat_valid hv
    rw [if_pos h, ht, if_neg (by omega)]
  · rw [if_neg h, if_neg h]

theorem stringToUpper_idem (s : String) : s.toUpper.toUpper = s.toUpper := by
  show (s.map Char.toUpper).map Char.toUpper = s.map Char.toUpper
  rw [String.map_eq, String.map_eq]
  apply congrArg String.mk
  show (s.data.map Char.toUpper).map Char.toUpper = s.data.map Char.toUpper
  rw [List.map_map]
  exact List.map_congr_left (fun a _ => charToUpper_idem a)

theorem lookup_by_ods_code_toUpper (data : List CsvRow) (c : String) :
    lookup_by_ods_code data c = lookup_by_ods_code data c.toUpper := by
  induction data with
  | nil => rfl
  | cons r rest ih =>
    unfold lookup_by_ods_code
    rw [stringToUpper_idem]
    split
    · rfl
    · exact ih

theorem lookup_by_ods_code_eq_find (data : List CsvRow) (c : String) :
    lookup_by_ods_code data c = data.find? (fun r => r.GP_ODS_CODE == c.toUpper) := by
  induction data with
  | nil => rfl
  | cons r rest ih =>
    unfold lookup_by_ods_code
    by_cases h : r.GP_ODS_CODE = c.toUpper
    · have hfind : List.find? (fun x : CsvRow => x.GP_ODS_CODE == c.toUpper) (r :: rest)
          = some r :=
        List.find?_cons_of_pos rest (show (r.GP_ODS_CODE == c.toUpper) = true from beq_iff_eq.mpr h)
      rw [if_pos h, hfind]
    · have hfind : List.find? (fun x : CsvRow => x.GP_ODS_CODE == c.toUpper) (r :: rest)
          = List.find? (fun x : CsvRow => x.GP_ODS_CODE == c.toUpper) rest :=
        List.find?_cons_of_neg rest (by simpa using h)
      rw [if_neg h, hfind]
      exact ih

/-! ### Statistics lemmas -/

theorem bumpCount_sum (m : List (String × Nat)) (s : String) :
    ((bumpCount m s).map (fun p => p.2)).sum = ((m.map (fun p => p.2)).sum) + 1 := by
  induction m with
  | nil => simp [bumpCount]
  | cons p m ih =>
    unfold bumpCount
    by_cases h : p.1 = s
    · rw [if_pos h]
      simp only [List.map_cons, List.sum_cons]
      omega
    · rw [if_neg h]
      simp only [List.map_cons, List.sum_cons, ih]
      omega

theorem system_counts_foldl_sum (data : List CsvRow) :
    ∀ (m : List (String × Nat)),
    (((data.foldl (fun m r => bumpCount m r.GP_SYSTEM) m).map (fun p => p.2)).sum)
      = ((m.map (fun p => p.2)).sum) + data.length := by
  induction data with
  | nil => intro m; simp
  | cons r data ih =>
    intro m
    simp only [List.foldl_cons, List.length_cons]
    rw [ih, bumpCount_sum]
    omega

theorem system_counts_sum (data : List CsvRow) :
    ((system_counts data).map (fun p => p.2)).sum = data.length := by
  unfold system_counts
  rw [system_counts_foldl_sum]
  simp

theorem orderedInsert_filter_count (a : String × Nat) (l : List (String × Nat)) (k : Nat) :
    (List.orderedInsert countGe a l).filter (fun p => p.2 == k)
      = (if a.2 = k then a :: l.filter (fun p => p.2 == k)
         else l.filter (fun p => p.2 == k)) := by
  induction l with
  | nil =>
    by_cases h : a.2 = k
    · simp [List.orderedInsert, List.filter_cons, h]
    · simp [List.orderedInsert, List.filter_cons, h]
  | cons b l ih =>
    simp only [List.orderedInsert]
    by_cases hr : countGe a b
    · rw [if_pos hr]
      by_cases hak : a.2 = k <;> by_cases hbk : b.2 = k <;>
        simp [List.filter_cons, hak, hbk]
    · rw [if_neg hr]
      have hgt : a.2 < b.2 := by
        unfold countGe at hr
        omega
      by_cases hak : a.2 = k
      · have hbk : ¬ (b.2 = k) := by omega
        simp only [List.filter_cons, beq_iff_eq, hbk, if_false, ih, hak, if_true]
      · by_cases hbk : b.2 = k <;>
          simp [List.filter_cons, hak, hbk, ih]

theorem insertionSort_filter_count (l : List (String × Nat)) (k : Nat) :
    (List.insertionSort countGe l).filter (fun p => p.2 == k)
      = l.filter (fun p => p.2 == k) := by
  induction l with
  | nil => rfl
  | cons b l ih =>
    simp only [List.insertionSort]
    rw [orderedInsert_filter_count]
    by_cases h : b.2 = k
    · rw [if_pos h, ih]
      simp [List.filter_cons, h]
    · rw [if_neg h, ih]
      simp [List.filter_cons, h]

theorem round_half_even_err (x : ℚ) : |((round_half_even x : ℤ) : ℚ) - x| ≤ 1 / 2 := by
  unfold round_half_even
  have h1 : ((⌊x⌋ : ℤ) : ℚ) ≤ x := Int.floor_le x
  have h2 : x < (⌊x⌋ : ℤ) + 1 := Int.lt_floor_add_one x
  by_cases hf : x - ((⌊x⌋ : ℤ) : ℚ) < 1 / 2
  · rw [if_pos hf, abs_le]
    constructor <;> linarith
  · rw [if_neg hf]
    by_cases hg : 1 / 2 < x - ((⌊x⌋ : ℤ) : ℚ)
    · rw [if_pos hg]
      push_cast
      rw [abs_le]
      constructor <;> linarith
    · rw [if_neg hg]
      have heq : x - ((⌊x⌋ : ℤ) : ℚ) = 1 / 2 := le_antisymm (not_lt.mp hg) (not_lt.mp hf)
      by_cases hev : ⌊x⌋ % 2 = 0
      · rw [if_pos hev, abs_le]
        constructor <;> linarith
      · rw [if_neg hev]
        push_cast
        rw [abs_le]
        constructor <;> linarith

theorem pyRound2_err (x : ℚ) : |pyRound2 x - x| ≤ 1 / 200 := by
  have h := round_half_even_err (x * 100)
  have heq : pyRound2 x - x = (((round_half_even (x * 100) : ℤ) : ℚ) - x * 100) / 100 := by
    unfold pyRound2
    ring
  rw [heq, abs_div]
  have h100 : |(100 : ℚ)| = 100 := by norm_num
  rw [h100]
  rw [div_le_iff₀ (by norm_num : (0:ℚ) < 100)]
  calc |((round_half_even (x * 100) : ℤ) : ℚ) - x * 100| ≤ 1 / 2 := h
    _ = 1 / 200 * 100 := by norm_num

theorem sum_map_round_err (l : List ℚ) :
    |(l.map pyRound2).sum - l.sum| ≤ (l.length : ℚ) / 200 := by
  induction l with
  | nil => simp
  | cons x l ih =>
    simp only [List.map_cons, List.sum_cons, List.length_cons]
    have h1 := pyRound2_err x
    have habs : |(pyRound2 x + (l.map pyRound2).sum) - (x + l.sum)|
        ≤ |pyRound2 x - x| + |(l.map pyRound2).sum - l.sum| := by
      have : (pyRound2 x + (l.map pyRound2).sum) - (x + l.sum)
          = (pyRound2 x - x) + ((l.map pyRound2).sum - l.sum) := by ring
      rw [this]
      exact abs_add _ _
    have hsum : |pyRound2 x - x| + |(l.map pyRound2).sum - l.sum|
        ≤ 1 / 200 + (l.length : ℚ) / 200 := add_le_add h1 ih
    have : (1 : ℚ) / 200 + (l.length : ℚ) / 200 = ((l.length : ℚ) + 1) / 200 := by ring
    rw [this] at hsum
    push_cast
    exact le_trans habs hsum

theorem sum_div_mul (l : List (String × Nat)) (T : ℚ) :
    (l.map (fun p => ((p.2 : ℚ) / T) * 100)).sum
      = (((l.map (fun p => p.2)).sum : ℕ) : ℚ) * 100 / T := by
  induction l with
  | nil => simp
  | cons p l ih =>
    simp only [List.map_cons, List.sum_cons, ih]
    push_cast
    ring

theorem sum_exact_percent (l : List (String × Nat)) (T : ℕ) (hT : T ≠ 0)
    (hsum : (l.map (fun p => p.2)).sum = T) :
    (l.map (fun p => ((p.2 : ℚ) / (T : ℚ)) * 100)).sum = 100 := by
  rw [sum_div_mul, hsum]
  have hT2 : (T : ℚ) ≠ 0 := Nat.cast_ne_zero.mpr hT
  field_simp

theorem attachPercentages_pos (T : Nat) (hT : T ≠ 0) :
    ∀ (l : List (String × Nat)),
    attachPercentages T l
      = some (l.map (fun p => (p.1, p.2, pyRound2 (((p.2 : ℚ) / (T : ℚ)) * 100)))) := by
  intro l
  induction l with
  | nil => rfl
  | cons p l ih =>
    unfold attachPercentages
    rw [if_neg hT, ih]
    rfl

theorem get_statistics_eq (data : List CsvRow) :
    get_statistics data
      = some ⟨data.length,
          (List.insertionSort countGe (system_counts data)).map
            (fun p => (p.1, p.2, pyRound2 (((p.2 : ℚ) / (data.length : ℚ)) * 100)))⟩ := by
  unfold get_statistics
  by_cases h : data.length = 0
  · have hnil : data = [] := List.length_eq_zero.mp h
    subst hnil
    rfl
  · rw [attachPercentages_pos data.length h _]

/-! ## Claim theorems -/

/-- Claim C1, counterexample: on the three-token field `"EVERGREENLIFE/TPP/EMIS"`
the claim's fallback rule ("otherwise, for every field of two or more tokens,
the canonical supplier is the first token") prescribes `"EVERGREENLIFE"`, but
`get_main_system_from_value` returns `"TPP"` — the code's `EVERGREENLIFE`
rules are not restricted to exactly two tokens. -/
theorem claim_C1_counterexample :
    pySplitSlash "EVERGREENLIFE/TPP/EMIS" = ["EVERGREENLIFE", "TPP", "EMIS"] ∧
    resolveCanonicalClaim ["EVERGREENLIFE", "TPP", "EMIS"] = "EVERGREENLIFE" ∧
    get_main_system_from_value "EVERGREENLIFE/TPP/EMIS" = "TPP" ∧
    ("TPP" : String) ≠ "EVERGREENLIFE" := by
  refine ⟨by decide, rfl, by decide, by decide⟩

/-- Claim C1 (amended): canonical supplier resolution is a deterministic
function returning exactly one token of the field; a single token yields that
token and, on any field of two or more tokens, the first token equal to
`EVERGREENLIFE` yields the second token, else a second token equal to
`EVERGREENLIFE` yields the first, else the first token
(`resolveCanonicalAmended`); in particular the claim's four examples hold. -/
theorem claim_C1_amended_ok (value : String) :
    get_main_system_from_value value = resolveCanonicalAmended (pySplitSlash value) ∧
    get_main_system_from_value value ∈ pySplitSlash value ∧
    get_main_system_from_value "EMIS" = "EMIS" ∧
    get_main_system_from_value "EVERGREENLIFE/TPP" = "TPP" ∧
    get_main_system_from_value "TPP/EVERGREENLIFE" = "TPP" ∧
    get_main_system_from_value "EMIS/TPP" = "EMIS" :=
  ⟨resolveCanonicalAmended_eq value, get_main_system_mem value,
    by decide, by decide, by decide, by decide⟩

/-- Claim C2, counterexample: a publications page offering two downloads whose
titles both contain `"Annex 1"` and `"CSV"` does not make resolution fail —
`get_download_link_from_response` silently returns the first match, so "more
than one candidate matches ⟹ error" is false. -/
theorem claim_C2_counterexample :
    ([⟨"Appointments in General Practice, Annex 1, CSV format", "https://files.example/a.zip"⟩,
      ⟨"Appointments in General Practice, Annex 1, CSV extras", "https://files.example/b.zip"⟩] :
        List DownloadCard).countP (fun d => matchesAnnexCsv d.title) = 2 ∧
    get_download_link_from_response
      [⟨"Appointments in General Practice, Annex 1, CSV format", "https://files.example/a.zip"⟩,
       ⟨"Appointments in General Practice, Annex 1, CSV extras", "https://files.example/b.zip"⟩]
      = Except.ok "https://files.example/a.zip" := by
  constructor
  · decide
  · rfl

/-- Claim C2 (amended): resolution succeeds exactly when at least one download
card's title contains both the annex marker `"Annex 1"` and the format marker
`"CSV"`; when zero candidates match it fails with an error, and otherwise it
returns the href of the first matching candidate in page order (even when
several match). -/
theorem claim_C2_amended_ok (downloads : List DownloadCard) :
    (exceptIsOk (get_download_link_from_response downloads) = true ↔
      ∃ d ∈ downloads, matchesAnnexCsv d.title = true) ∧
    (∀ d, downloads.find? (fun d => matchesAnnexCsv d.title) = some d →
      get_download_link_from_response downloads = Except.ok d.href) := by
  constructor
  · constructor
    · intro h
      by_contra hne
      push_neg at hne
      have hnone : downloads.find? (fun d => matchesAnnexCsv d.title) = none :=
        List.find?_eq_none.mpr (by
          intro x hx
          simpa using hne x hx)
      unfold get_download_link_from_response at h
      rw [hnone] at h
      by_cases hlen : downloads.length = 0 <;> simp [hlen, exceptIsOk] at h
    · rintro ⟨d, hd, hm⟩
      unfold get_download_link_from_response
      have hex : ∃ x, downloads.find? (fun d => matchesAnnexCsv d.title) = some x := by
        rw [← Option.isSome_iff_exists, List.find?_isSome]
        exact ⟨d, hd, hm⟩
      rcases hex with ⟨x, hx⟩
      rw [hx]
      rfl
  · intro d hd
    unfold get_download_link_from_response
    rw [hd]

theorem claim_C2_amended_witness :
    get_download_link_from_response
      [⟨"Appointments in General Practice, Annex 1, CSV format", "https://files.example/a.zip"⟩]
      = Except.ok "https://files.example/a.zip" :=
  (claim_C2_amended_ok
    [⟨"Appointments in General Practice, Annex 1, CSV format", "https://files.example/a.zip"⟩]).2
    ⟨"Appointments in General Practice, Annex 1, CSV format", "https://files.example/a.zip"⟩
    (by decide)

/-- Claim C3: for every ODS code whose commissioner code X is already in the
loaded cache (and nonempty, i.e. truthy in Python), the enricher issues no
network call for that code, the in-memory map still holds X afterwards, no
pair for that code is ever appended to the persistent cache file during the
run, every output row for that code carries X, and every pair the run does
append was newly resolved from the registry (so the cache is append-only and
never overwrites an existing entry). -/
theorem claim_C3_cache_monotone (oracle : String → Option String)
    (m0 : List (String × String)) (rows : List InRow) (c X : String)
    (hc : m0.lookup c = some X) (hX : X ≠ "") :
    c ∉ (enrich_main oracle m0 rows).apiCalls ∧
    (enrich_main oracle m0 rows).odsMap.lookup c = some X ∧
    (∀ p ∈ (enrich_main oracle m0 rows).appends, p.1 ≠ c) ∧
    (∀ r ∈ (enrich_main oracle m0 rows).outRows, r.2.ods = c → r.1 = X) ∧
    (∀ p ∈ (enrich_main oracle m0 rows).appends, oracle p.1 = some p.2 ∧ p.2 ≠ "") := by
  have h := enrich_cached_invariant oracle c X hX rows ⟨m0, [], [], []⟩ hc
    (by simp) (by simp) (by simp)
  exact ⟨h.2.1, h.1, h.2.2.1, h.2.2.2, enrich_appends_consistent oracle rows _ (by simp)⟩

theorem claim_C3_witness :
    ("A1" ∉ (enrich_main (fun _ => none) [("A1", "X1")] [⟨"A1", []⟩, ⟨"B2", []⟩]).apiCalls) ∧
    (enrich_main (fun _ => none) [("A1", "X1")] [⟨"A1", []⟩, ⟨"B2", []⟩]).odsMap.lookup "A1"
      = some "X1" := by
  have h := claim_C3_cache_monotone (fun _ => none) [("A1", "X1")] [⟨"A1", []⟩, ⟨"B2", []⟩]
    "A1" "X1" (by decide) (by decide)
  exact ⟨h.1, h.2.1⟩

/-- Claim C4: if the registry returns 404 for one practice's ODS code (the
oracle yields `None`) and the cache has no entry for it, the run still
produces one output row per input row, records that practice's commissioner
as `UNKNOWN`, and does not write that code to the persistent cache. -/
theorem claim_C4_enrich_404 (oracle : String → Option String)
    (m0 : List (String × String)) (rows : List InRow) (c : String)
    (hmiss : cacheHit m0 c = none) (h404 : oracle c = none) :
    (enrich_main oracle m0 rows).outRows.length = rows.length ∧
    (∀ r ∈ (enrich_main oracle m0 rows).outRows, r.2.ods = c → r.1 = "UNKNOWN") ∧
    (∀ p ∈ (enrich_main oracle m0 rows).appends, p.1 ≠ c) := by
  have h := enrich_404_invariant oracle c h404 rows ⟨m0, [], [], []⟩ hmiss (by simp) (by simp)
  have hlen := enrich_outRows_length oracle rows ⟨m0, [], [], []⟩
  exact ⟨by simpa using hlen, h.2.2, h.2.1⟩

theorem claim_C4_witness :
    (enrich_main (fun _ => none) [] [⟨"A1", []⟩]).outRows.length = 1 :=
  (claim_C4_enrich_404 (fun _ => none) [] [⟨"A1", []⟩] "A1" rfl rfl).1

/-- Claim C8: `lookup_by_ods_code` is case-insensitive in its query — looking
up `c` and `c.toUpper` give the same result — and the result is the first
record in file order whose `GP_ODS_CODE` equals the upper-cased query, or
`none` when no record matches. -/
theorem claim_C8_lookup_case_insensitive (data : List CsvRow) (c : String) :
    lookup_by_ods_code data c = lookup_by_ods_code data c.toUpper ∧
    lookup_by_ods_code data c = data.find? (fun r => r.GP_ODS_CODE == c.toUpper) :=
  ⟨lookup_by_ods_code_toUpper data c, lookup_by_ods_code_eq_find data c⟩

/-- Claim C10: on an empty loaded dataset `get_statistics` does not divide by
zero (the percentage division runs only for suppliers occurring in at least
one record) and returns zero total practices with an empty per-system map. -/
theorem claim_C10_empty_statistics :
    get_statistics ([] : List CsvRow) = some ⟨0, []⟩ := rfl

/-- Claim C5, counterexample: `process_data_files` stores ODS codes verbatim —
it never upper-cases. Two rows whose codes differ only in letter case
(`"a1"` and `"A1"`) yield two output records, one of which carries the
non-upper-cased code `"a1"`, so neither "canonicalized to upper case" nor
"exactly one record for case-differing codes" holds. -/
theorem claim_C5_counterexample :
    (process_data_files [[["h1", "h2", "h3", "h4"],
        ["x", "a1", "NAME ONE", "TPP"],
        ["x", "A1", "NAME TWO", "EMIS"]]]).1.map Prod.fst = ["A1", "a1"] ∧
    "a1".toUpper = "A1" ∧ ("a1" : String) ≠ "A1" := by
  refine ⟨by decide, ?_, by decide⟩
  show String.map Char.toUpper "a1" = "A1"
  rw [String.map_eq]
  decide

/-- Claim C5 (amended): the Normalizer stores ODS codes verbatim and keys
records case-sensitively — the codes appearing in its output are exactly the
codes of the consumed data rows, with no case canonicalization, so rows whose
codes differ only in case produce distinct records. -/
theorem claim_C5_amended_ok (files : List (List (List String))) (c : String) :
    c ∈ (process_data_files files).1.map Prod.fst ↔
      ∃ r ∈ validRows files, r.getD 1 "" = c := by
  have hst : (files.foldl (fun st f => (f.drop 1).foldl processRow st) ⟨[], []⟩)
      = (validRows files).foldl processRow ⟨[], []⟩ := by
    rw [foldl_files_eq]
    exact foldl_filter_eq _ _
  have hv : ∀ r ∈ validRows files, 4 ≤ r.length := by
    intro r hr
    unfold validRows at hr
    have := List.of_mem_filter hr
    simpa using this
  have h1 : (process_data_files files).1
      = List.insertionSort keyLe (((validRows files).foldl processRow ⟨[], []⟩).data) := by
    show List.insertionSort keyLe
        ((files.foldl (fun (st : NormState) (f : List (List String)) =>
          (f.drop 1).foldl processRow st) (⟨[], []⟩ : NormState)).data) = _
    rw [hst]
  rw [h1]
  have hperm := List.perm_insertionSort keyLe (((validRows files).foldl processRow ⟨[], []⟩).data)
  rw [List.Perm.mem_iff (hperm.map Prod.fst)]
  rw [← lookup_isSome_iff]
  rw [data_lookup_foldl _ _ _ hv]
  have hempty : ((⟨[], []⟩ : NormState).data.lookup c) = none := rfl
  rw [hempty, Option.none_or, Option.isSome_map']
  rw [List.find?_isSome]
  constructor
  · rintro ⟨x, hx, hpx⟩
    exact ⟨x, hx, by simpa using hpx⟩
  · rintro ⟨x, hx, hpx⟩
    exact ⟨x, hx, by simpa using hpx⟩

/-- Claim C6: deduplication is first-wins — in the Normalizer's output, the
supplier pair stored under an ODS code is the raw supplier field and canonical
supplier of the first data row (in stable file-then-row order) carrying that
code, and the stored practice name is that same first row's name; all later
duplicate rows are ignored. -/
theorem claim_C6_dedup_first_wins (files : List (List (List String))) (c : String) :
    (process_data_files files).1.lookup c
      = ((validRows files).find? (fun r => r.getD 1 "" == c)).map
          (fun r => (r.getD 3 "", get_main_system_from_value (r.getD 3 ""))) ∧
    (process_data_files files).2.lookup c
      = ((validRows files).find? (fun r => r.getD 1 "" == c)).map (fun r => r.getD 2 "") := by
  have hst : (files.foldl (fun st f => (f.drop 1).foldl processRow st) ⟨[], []⟩)
      = (validRows files).foldl processRow ⟨[], []⟩ := by
    rw [foldl_files_eq]
    exact foldl_filter_eq _ _
  have hv : ∀ r ∈ validRows files, 4 ≤ r.length := by
    intro r hr
    unfold validRows at hr
    have := List.of_mem_filter hr
    simpa using this
  constructor
  · have h1 : (process_data_files files).1
        = List.insertionSort keyLe (((validRows files).foldl processRow ⟨[], []⟩).data) := by
      show List.insertionSort keyLe
          ((files.foldl (fun (st : NormState) (f : List (List String)) =>
            (f.drop 1).foldl processRow st) (⟨[], []⟩ : NormState)).data) = _
      rw [hst]
    rw [h1]
    have hnodup : ((((validRows files).foldl processRow ⟨[], []⟩).data).map Prod.fst).Nodup :=
      data_nodupkeys_foldl _ _ (by simp)
    have hperm := List.perm_insertionSort keyLe
      (((validRows files).foldl processRow ⟨[], []⟩).data)
    have hnodup2 : ((List.insertionSort keyLe
        (((validRows files).foldl processRow ⟨[], []⟩).data)).map Prod.fst).Nodup :=
      ((hperm.map Prod.fst).nodup_iff).mpr hnodup
    rw [lookup_perm hperm hnodup2 c]
    rw [data_lookup_foldl _ _ _ hv]
    have hempty : ((⟨[], []⟩ : NormState).data.lookup c) = none := rfl
    rw [hempty, Option.none_or]
  · have h2 : (process_data_files files).2
        = (((validRows files).foldl processRow ⟨[], []⟩).names) := by
      show ((files.foldl (fun (st : NormState) (f : List (List String)) =>
        (f.drop 1).foldl processRow st) (⟨[], []⟩ : NormState)).names) = _
      rw [hst]
    rw [h2]
    rw [names_lookup_foldl _ _ _ hv]
    have hempty : ((⟨[], []⟩ : NormState).names.lookup c) = none := rfl
    rw [hempty, Option.none_or]

/-- Claim C7: the Normalizer's written output is the fixed header row followed
by one row per deduplicated practice, whose first (ODS code) column is sorted
ascending; being a pure function of the input files, a re-run on the same
files yields the identical output. -/
theorem claim_C7_sorted_deterministic (files : List (List (List String))) :
    ((write_output_file (process_data_files files).1 (process_data_files files).2).drop 1).map
        (fun r => r.getD 0 "")
      = (process_data_files files).1.map Prod.fst ∧
    List.Sorted (· ≤ ·) ((process_data_files files).1.map Prod.fst) ∧
    (write_output_file (process_data_files files).1 (process_data_files files).2).length
      = (process_data_files files).1.length + 1 := by
  refine ⟨?_, ?_, ?_⟩
  · unfold write_output_file
    rw [List.drop_one, List.tail_cons, List.map_map]
    rfl
  · haveI : IsTotal (String × String × String) keyLe := ⟨keyLe_total⟩
    haveI : IsTrans (String × String × String) keyLe := ⟨fun _ _ _ => keyLe_trans⟩
    have hs : List.Sorted keyLe ((process_data_files files).1) := by
      show List.Sorted keyLe (List.insertionSort keyLe _)
      exact List.sorted_insertionSort keyLe _
    rw [List.Sorted, List.pairwise_map]
    exact hs.imp (fun h => (charListLe_iff_le _ _).mp h)
  · unfold write_output_file
    simp

/-- Claim C9: for every loaded dataset, `get_statistics` reports
`total_practices` equal to the number of loaded records; the per-supplier
counts sum to that total; suppliers are sorted by count descending with ties
kept in first-encounter order (each equal-count class appears in exactly its
encounter order, the stable-sort property); each percentage is
`round((count / total) * 100, 2)` (exact-rational model of Python rounding);
and on a non-empty dataset the percentages sum to 100 within the rounding
tolerance of half a unit in the second decimal per supplier. -/
theorem claim_C9_statistics (data : List CsvRow) (st : Stats)
    (h : get_statistics data = some st) :
    st.total_practices = data.length ∧
    (st.systems.map (fun p => p.2.1)).sum = data.length ∧
    List.Pairwise (fun a b => b.2.1 ≤ a.2.1) st.systems ∧
    (∀ k : Nat, st.systems.filter (fun p => p.2.1 == k)
        = ((system_counts data).filter (fun q => q.2 == k)).map
            (fun q => (q.1, q.2, pyRound2 (((q.2 : ℚ) / (data.length : ℚ)) * 100)))) ∧
    (∀ p ∈ st.systems, p.2.2 = pyRound2 (((p.2.1 : ℚ) / (data.length : ℚ)) * 100)) ∧
    (data ≠ [] →
      |(st.systems.map (fun p => p.2.2)).sum - 100| ≤ (st.systems.length : ℚ) / 200) := by
  have heq := get_statistics_eq data
  rw [h, Option.some.injEq] at heq
  subst heq
  dsimp only
  refine ⟨rfl, ?_, ?_, ?_, ?_, ?_⟩
  · rw [List.map_map]
    show ((List.insertionSort countGe (system_counts data)).map
        (fun p => p.2)).sum = data.length
    exact ((List.perm_insertionSort countGe (system_counts data)).map
      (fun p : String × Nat => p.2)).sum_eq.trans (system_counts_sum data)
  · rw [List.pairwise_map]
    exact List.sorted_insertionSort countGe (system_counts data)
  · intro k
    rw [List.filter_map]
    show ((List.insertionSort countGe (system_counts data)).filter
          (fun q => q.2 == k)).map
        (fun q => (q.1, q.2, pyRound2 (((q.2 : ℚ) / (data.length : ℚ)) * 100))) = _
    rw [insertionSort_filter_count]
  · intro p hp
    rcases List.mem_map.mp hp with ⟨q, hq, rfl⟩
    rfl
  · intro hne
    have hlen : data.length ≠ 0 := fun h0 => hne (List.length_eq_zero.mp h0)
    have hperm := List.perm_insertionSort countGe (system_counts data)
    have hsum100 : ((List.insertionSort countGe (system_counts data)).map
        (fun q => ((q.2 : ℚ) / (data.length : ℚ)) * 100)).sum = 100 := by
      rw [(hperm.map (fun q : String × Nat => ((q.2 : ℚ) / (data.length : ℚ)) * 100)).sum_eq]
      exact sum_exact_percent (system_counts data) data.length hlen (system_counts_sum data)
    have herr := sum_map_round_err ((List.insertionSort countGe (system_counts data)).map
        (fun q => ((q.2 : ℚ) / (data.length : ℚ)) * 100))
    rw [hsum100, List.map_map, List.length_map] at herr
    rw [List.map_map, List.length_map]
    exact herr

theorem claim_C9_witness :
    (⟨4, [("TPP", 3, 75), ("EMIS", 1, 25)]⟩ : Stats).total_practices
      = ([⟨"A1", "N1", "TPP", "TPP"⟩, ⟨"A2", "N2", "TPP", "TPP"⟩,
          ⟨"A3", "N3", "TPP", "TPP"⟩, ⟨"A4", "N4", "EMIS", "EMIS"⟩] : List CsvRow).length ∧
    ((⟨4, [("TPP", 3, 75), ("EMIS", 1, 25)]⟩ : Stats).systems.map (fun p => p.2.1)).sum
      = ([⟨"A1", "N1", "TPP", "TPP"⟩, ⟨"A2", "N2", "TPP", "TPP"⟩,
          ⟨"A3", "N3", "TPP", "TPP"⟩, ⟨"A4", "N4", "EMIS", "EMIS"⟩] : List CsvRow).length := by
  have hstat : get_statistics
      [⟨"A1", "N1", "TPP", "TPP"⟩, ⟨"A2", "N2", "TPP", "TPP"⟩,
       ⟨"A3", "N3", "TPP", "TPP"⟩, ⟨"A4", "N4", "EMIS", "EMIS"⟩]
      = some ⟨4, [("TPP", 3, 75), ("EMIS", 1, 25)]⟩ := by
    rw [get_statistics_eq]
    norm_num [system_counts, bumpCount, List.insertionSort, List.orderedInsert, countGe,
      pyRound2, round_half_even]
  have h := claim_C9_statistics
    [⟨"A1", "N1", "TPP", "TPP"⟩, ⟨"A2", "N2", "TPP", "TPP"⟩,
     ⟨"A3", "N3", "TPP", "TPP"⟩, ⟨"A4", "N4", "EMIS", "EMIS"⟩]
    ⟨4, [("TPP", 3, 75), ("EMIS", 1, 25)]⟩ hstat
  exact ⟨h.1, h.2.1⟩
